import Mathlib

set_option autoImplicit false
set_option linter.unusedVariables false

/-!
Shallow embedding of `src/yt-spanish.py`: the stream-selection engine and
download-plan construction of a YouTube download tool.  Python dictionaries
of stream metadata become structures with optional fields (`dict.get` with a
default becomes `Option.getD`; a `dict.get(k)` that may miss becomes an
`Option`-valued field); `sys.exit(1)` becomes `Except.error`; the
interactive input loop is driven by an explicit list of the strings the
user types, one per prompt.
-/

/-- One entry of the metadata document's `formats` list
(`video_info['formats']`).  Only the fields the selection logic reads. -/
structure Format where
  format_id : String
  vcodec : Option String := none
  acodec : Option String := none
  height : Option Nat := none
  fps : Option Nat := none
  tbr : Option Nat := none
  abr : Option Nat := none
  language : Option String := none
deriving DecidableEq

/-- `f.get('vcodec') != 'none'` (line 222): an absent key also counts as
video-bearing, exactly as in the Python comparison with `None`. -/
def isVideoBearing (f : Format) : Bool := !(f.vcodec == some "none")

/-- `f.get('acodec') == 'none'` (line 222). -/
def acodecIsNone (f : Format) : Bool := f.acodec == some "none"

/-- `f.get('acodec') != 'none'` (line 245). -/
def isAudioBearing (f : Format) : Bool := !(f.acodec == some "none")

/-- Lines 222-224: video-only candidates, falling back to all video-bearing
formats when no video-only stream exists. -/
def videoCandidates (formats : List Format) : List Format :=
  let vs := formats.filter (fun f => isVideoBearing f && acodecIsNone f)
  if vs.isEmpty then formats.filter isVideoBearing else vs

/-- `int(re.sub(r'\D', '', quality))` (line 228): keep the digits of the
quality string; `none` models the `ValueError` raised by `int('')` when the
string holds no digit (caught at line 234 and ignored with a warning). -/
def extractDigits (q : String) : Option Nat :=
  let ds := q.toList.filter Char.isDigit
  if ds.isEmpty then none
  else some (ds.foldl (fun acc c => acc * 10 + (c.toNat - 48)) 0)

/-- Lines 226-235: the optional quality filter.  Returns the candidate list
that will be ranked, plus a flag recording whether the non-fatal
`Aviso: Calidad no encontrada` warning of line 233 was printed. -/
def applyQuality (vs : List Format) (q : Option String) : List Format × Bool :=
  match q with
  | none => (vs, false)
  | some qs =>
    match extractDigits qs with
    | none => (vs, false)
    | some qv =>
      let filtered := vs.filter (fun f => f.height == some qv)
      if filtered.isEmpty then (vs, true) else (filtered, false)

/-- The sort key of line 237: `(f.get('height', 0), f.get('fps', 0),
f.get('tbr', 0))`. -/
def vkey (f : Format) : Nat × Nat × Nat :=
  (f.height.getD 0, f.fps.getD 0, f.tbr.getD 0)

/-- Strict lexicographic comparison of sort keys (Python tuple `<`). -/
def keyLtB (a b : Nat × Nat × Nat) : Bool :=
  decide (a.1 < b.1) ||
    (a.1 == b.1 && (decide (a.2.1 < b.2.1) ||
      (a.2.1 == b.2.1 && decide (a.2.2 < b.2.2))))

/-- Stable descending insertion: `x` goes before the first element whose key
is not strictly greater than `x`'s, which is exactly where Python's stable
`list.sort(key=..., reverse=True)` leaves it relative to earlier items. -/
def insertDesc (x : Format) : List Format → List Format
  | [] => [x]
  | y :: ys => if keyLtB (vkey x) (vkey y) then y :: insertDesc x ys else x :: y :: ys

/-- Stable descending sort by `vkey` (line 237). -/
def sortDesc : List Format → List Format
  | [] => []
  | x :: xs => insertDesc x (sortDesc xs)

/-- `video_streams[0] if video_streams else None` (line 238). -/
def selectTop (l : List Format) : Option Format := (sortDesc l).head?

/-- Lines 222-242 of `select_streams`: the automatic video selection.
`Except.error ()` models the fatal `sys.exit(1)` of line 242. -/
def selectVideoResult (formats : List Format) (q : Option String) : Except Unit Format :=
  match selectTop (applyQuality (videoCandidates formats) q).1 with
  | some v => Except.ok v
  | none => Except.error ()

/-- First maximum of a list under `vkey`: keeps the earlier element on
ties.  Reference function used to characterise `selectTop`. -/
def firstMax : List Format → Option Format
  | [] => none
  | a :: l =>
    match firstMax l with
    | none => some a
    | some b => if keyLtB (vkey a) (vkey b) then some b else some a

theorem keyLtB_iff (a b : Nat × Nat × Nat) :
    keyLtB a b = true ↔
      (a.1 < b.1 ∨ (a.1 = b.1 ∧ (a.2.1 < b.2.1 ∨ (a.2.1 = b.2.1 ∧ a.2.2 < b.2.2)))) := by
  simp [keyLtB]

theorem keyLtB_asymm_trans {u v a : Nat × Nat × Nat}
    (h1 : keyLtB u v = true) (h2 : keyLtB a v = false) : keyLtB a u = false := by
  obtain ⟨u1, u2, u3⟩ := u
  obtain ⟨v1, v2, v3⟩ := v
  obtain ⟨a1, a2, a3⟩ := a
  rw [keyLtB_iff] at h1
  have h2' := h2
  rw [← Bool.not_eq_true, keyLtB_iff] at h2'
  rw [← Bool.not_eq_true, keyLtB_iff]
  simp only at h1 h2' ⊢
  omega

theorem keyLtB_le_trans {u v a : Nat × Nat × Nat}
    (h1 : keyLtB v u = false) (h2 : keyLtB a v = false) : keyLtB a u = false := by
  obtain ⟨u1, u2, u3⟩ := u
  obtain ⟨v1, v2, v3⟩ := v
  obtain ⟨a1, a2, a3⟩ := a
  rw [← Bool.not_eq_true, keyLtB_iff] at h1 h2
  rw [← Bool.not_eq_true, keyLtB_iff]
  simp only at h1 h2 ⊢
  omega

theorem insertDesc_length (x : Format) (l : List Format) :
    (insertDesc x l).length = l.length + 1 := by
  induction l with
  | nil => rfl
  | cons y ys ih =>
    unfold insertDesc
    by_cases h : keyLtB (vkey x) (vkey y) = true
    · simp [h, ih]
    · simp [h]

theorem sortDesc_length (l : List Format) : (sortDesc l).length = l.length := by
  induction l with
  | nil => rfl
  | cons x xs ih => simp [sortDesc, insertDesc_length, ih]

theorem head_sortDesc_eq_firstMax (l : List Format) :
    (sortDesc l).head? = firstMax l := by
  induction l with
  | nil => rfl
  | cons a xs ih =>
    show (insertDesc a (sortDesc xs)).head? = firstMax (a :: xs)
    cases hs : sortDesc xs with
    | nil =>
      have hx : xs = [] := by
        have := sortDesc_length xs
        rw [hs] at this
        exact List.length_eq_zero.mp this.symm
      subst hx
      rfl
    | cons y ys =>
      have hy : firstMax xs = some y := by
        rw [← ih, hs]; rfl
      unfold firstMax
      rw [hy]
      unfold insertDesc
      by_cases h : keyLtB (vkey a) (vkey y) = true
      · simp [h]
      · simp [h]

theorem firstMax_decomp (l : List Format) (h : l ≠ []) :
    ∃ v l₁ l₂, firstMax l = some v ∧ l = l₁ ++ v :: l₂ ∧
      (∀ u ∈ l₁, keyLtB (vkey u) (vkey v) = true) ∧
      (∀ u ∈ l₂, keyLtB (vkey v) (vkey u) = false) := by
  induction l with
  | nil => exact absurd rfl h
  | cons a xs ih =>
    cases hxs : xs with
    | nil =>
      refine ⟨a, [], [], ?_, rfl, ?_, ?_⟩
      · rfl
      · intro u hu; cases hu
      · intro u hu; cases hu
    | cons b bs =>
      rw [← hxs]
      have hne : xs ≠ [] := by rw [hxs]; exact List.cons_ne_nil _ _
      obtain ⟨v', l₁', l₂', hfm, hdec, h₁, h₂⟩ := ih hne
      by_cases hlt : keyLtB (vkey a) (vkey v') = true
      · refine ⟨v', a :: l₁', l₂', ?_, ?_, ?_, h₂⟩
        · unfold firstMax
          rw [hfm]
          simp [hlt]
        · rw [hdec]; rfl
        · intro u hu
          rcases List.mem_cons.mp hu with h | h
          · subst h; exact hlt
          · exact h₁ u h
      · have hlt' : keyLtB (vkey a) (vkey v') = false := by
          rwa [Bool.not_eq_true] at hlt
        refine ⟨a, [], xs, ?_, rfl, ?_, ?_⟩
        · unfold firstMax
          rw [hfm]
          simp [hlt']
        · intro u hu; cases hu
        · intro u hu
          rw [hdec] at hu
          rcases List.mem_append.mp hu with h | h
          · exact keyLtB_asymm_trans (h₁ u h) hlt'
          · rcases List.mem_cons.mp h with h | h
            · subst h; exact hlt'
            · exact keyLtB_le_trans (h₂ u h) hlt'

theorem decomp_mem {v : Format} {l l₁ l₂ : List Format} (h : l = l₁ ++ v :: l₂) : v ∈ l := by
  subst h
  exact List.mem_append.mpr (Or.inr (List.mem_cons_self _ _))

theorem filter_and_nil {l : List Format} {p q : Format → Bool}
    (h : l.filter p = []) : l.filter (fun f => p f && q f) = [] := by
  rw [List.filter_eq_nil_iff] at h ⊢
  intro a ha hpa
  exact h a ha (by simpa using (Bool.and_eq_true _ _ ▸ hpa).1)

theorem videoCandidates_nil {formats : List Format}
    (hvbear : formats.filter isVideoBearing = []) : videoCandidates formats = [] := by
  have h1 : formats.filter (fun f => isVideoBearing f && acodecIsNone f) = [] :=
    filter_and_nil hvbear
  simp [videoCandidates, h1, hvbear]

/-- **C2.** If both the video-only candidate list and its video-bearing
fallback are empty, `select_streams`'s video selection is fatal: it reaches
the `sys.exit(1)` at line 242 (modelled as `Except.error ()`) and never
produces a selection value, whatever the quality argument. -/
theorem select_streams_video_empty_fatal (formats : List Format) (q : Option String)
    (hvonly : formats.filter (fun f => isVideoBearing f && acodecIsNone f) = [])
    (hvbear : formats.filter isVideoBearing = []) :
    selectVideoResult formats q = Except.error () ∧
    ∀ v, selectVideoResult formats q ≠ Except.ok v := by
  have hvc : videoCandidates formats = [] := videoCandidates_nil hvbear
  have hap : (applyQuality (videoCandidates formats) q).1 = [] := by
    rw [hvc]
    cases q with
    | none => rfl
    | some qs =>
      cases h : extractDigits qs with
      | none => simp [applyQuality, h]
      | some qv => simp [applyQuality, h]
  have : selectVideoResult formats q = Except.error () := by
    unfold selectVideoResult
    rw [hap]
    rfl
  exact ⟨this, fun v hv => by rw [this] at hv; exact Except.noConfusion hv⟩

theorem select_streams_video_empty_fatal_w :
    selectVideoResult [] none = Except.error () :=
  (select_streams_video_empty_fatal [] none rfl rfl).1

/-- **C3.** When the quality constraint's digits match no candidate's
height, the selector records the non-fatal warning (flag `true`), ranks the
unfiltered candidate list, and still returns a candidate from it whenever
that list is non-empty: the constraint is a preference, not a hard
requirement. -/
theorem select_streams_quality_fallback (formats : List Format) (q : String) (qv : Nat)
    (hd : extractDigits q = some qv)
    (hmiss : (videoCandidates formats).filter (fun f => f.height == some qv) = [])
    (hne : videoCandidates formats ≠ []) :
    (applyQuality (videoCandidates formats) (some q)).2 = true ∧
    (applyQuality (videoCandidates formats) (some q)).1 = videoCandidates formats ∧
    ∃ v, selectVideoResult formats (some q) = Except.ok v ∧ v ∈ videoCandidates formats := by
  have hap : applyQuality (videoCandidates formats) (some q) = (videoCandidates formats, true) := by
    simp [applyQuality, hd, hmiss]
  refine ⟨by rw [hap], by rw [hap], ?_⟩
  obtain ⟨v, l₁, l₂, hv, hdec, _, _⟩ := firstMax_decomp (videoCandidates formats) hne
  refine ⟨v, ?_, decomp_mem hdec⟩
  unfold selectVideoResult
  rw [hap]
  show (match selectTop (videoCandidates formats) with
    | some v => Except.ok v
    | none => Except.error ()) = Except.ok v
  rw [selectTop, head_sortDesc_eq_firstMax, hv]

theorem select_streams_quality_fallback_w :
    (applyQuality (videoCandidates
        [{ format_id := "134", vcodec := some "avc1", acodec := some "none",
           height := some 360 }]) (some "720p")).2 = true :=
  (select_streams_quality_fallback
    [{ format_id := "134", vcodec := some "avc1", acodec := some "none", height := some 360 }]
    "720p" 720 rfl rfl (by decide)).1

/-- **C6.** For every non-empty candidate list, the ranking of line 237-238
(the stable descending sort by `(height, fps, tbr)` followed by taking the
first element) returns an element of the list whose key is maximal, with
every earlier element of the original list strictly smaller — i.e. ties are
broken by original list order.  Determinism is immediate: `selectTop` is a
function of the list alone. -/
theorem video_rank_first_max (l : List Format) (h : l ≠ []) :
    ∃ v l₁ l₂, selectTop l = some v ∧ l = l₁ ++ v :: l₂ ∧
      (∀ u ∈ l₁, keyLtB (vkey u) (vkey v) = true) ∧
      (∀ u ∈ l₂, keyLtB (vkey v) (vkey u) = false) := by
  rw [selectTop, head_sortDesc_eq_firstMax]
  exact firstMax_decomp l h

theorem video_rank_first_max_w :
    ∃ v l₁ l₂,
      selectTop [{ format_id := "134", height := some 360 },
                 { format_id := "137", height := some 1080 }] = some v ∧
      [{ format_id := "134", height := some 360 },
       { format_id := "137", height := some 1080 }] = l₁ ++ v :: l₂ ∧
      (∀ u ∈ l₁, keyLtB (vkey u) (vkey v) = true) ∧
      (∀ u ∈ l₂, keyLtB (vkey v) (vkey u) = false) :=
  video_rank_first_max _ (by decide)

/-- Python `\s` on the characters the CLI can see (`str.strip` / `int`
whitespace). -/
def isPySpace (c : Char) : Bool :=
  c == ' ' || c == '\t' || c == '\n' || c == '\r' || c == '\x0B' || c == '\x0C'

/-- `not choice_str.strip()` (line 151): the input is empty or whitespace
only. -/
def pyStripEmpty (s : String) : Bool := s.toList.all isPySpace

/-- Digit tail of a Python integer literal: digits with single underscores
allowed between digits (`int("1_0") == 10`, `int("1__0")` fails). -/
def digitsVal (acc : Nat) : List Char → Option Nat
  | [] => some acc
  | '_' :: c :: rest => if c.isDigit then digitsVal (acc * 10 + (c.toNat - 48)) rest else none
  | ['_'] => none
  | c :: rest => if c.isDigit then digitsVal (acc * 10 + (c.toNat - 48)) rest else none

/-- Unsigned part of `int(...)`: at least one leading digit. -/
def pyIntCore : List Char → Option Nat
  | c :: rest => if c.isDigit then digitsVal (c.toNat - 48) rest else none
  | [] => none

/-- `int(choice_str)` (line 155): strip surrounding whitespace, optional
sign, decimal digits; `none` models the `ValueError` caught at line 171. -/
def pyInt (s : String) : Option Int :=
  let t := ((s.toList.dropWhile isPySpace).reverse.dropWhile isPySpace).reverse
  match t with
  | '-' :: rest => (pyIntCore rest).map (fun n => -(n : Int))
  | '+' :: rest => (pyIntCore rest).map (fun n => (n : Int))
  | rest => (pyIntCore rest).map (fun n => (n : Int))

/-- Outcome of one round of the `while True` loop of `interactive_select`
(lines 146-174): re-prompt, explicit skip, or a chosen identifier. -/
inductive StepR where
  | retry : StepR
  | skip : StepR
  | chosen : String → StepR
deriving DecidableEq

/-- One loop iteration of `interactive_select` on one line of input.
`ident` extracts the returned identifier from the chosen descriptor: the
source returns `selected_stream['format_id']` for audio and
`selected_stream['lang_code']` for subtitles (lines 166-169); both kinds of
descriptor carry their identifier.  Empty input (line 151), `ValueError`
(line 171) and `IndexError` (line 173) all print a message and re-prompt. -/
def stepChoice {α : Type} (ident : α → String) (streams : List α) (inp : String) : StepR :=
  if pyStripEmpty inp then StepR.retry
  else
    match pyInt inp with
    | none => StepR.retry
    | some choice =>
      if choice = 0 then StepR.skip
      else if 1 ≤ choice ∧ choice ≤ (streams.length : Int) then
        match streams.get? (choice - 1).toNat with
        | some t => StepR.chosen (ident t)
        | none => StepR.retry
      else StepR.retry

/-- The `while True` loop, driven by the finite list of lines the user has
typed so far.  `none`: every line was consumed by a re-prompt and the loop
is still awaiting input; `some none`: returned `None` (skip);
`some (some i)`: returned identifier `i`. -/
def runSelect {α : Type} (ident : α → String) (streams : List α) :
    List String → Option (Option String)
  | [] => none
  | s :: rest =>
    match stepChoice ident streams s with
    | StepR.retry => runSelect ident streams rest
    | StepR.skip => some none
    | StepR.chosen i => some (some i)

/-- `interactive_select` (lines 108-174): an empty list short-circuits to
`None` (line 120-122); otherwise the input loop runs. -/
def interactive_select {α : Type} (ident : α → String) (streams : List α)
    (inputs : List String) : Option (Option String) :=
  if streams.isEmpty then some none else runSelect ident streams inputs

theorem pyInt_some_strip {s : String} {c : Int} (h : pyInt s = some c) :
    pyStripEmpty s = false := by
  cases hps : pyStripEmpty s
  · rfl
  · exfalso
    have hdrop : s.toList.dropWhile isPySpace = [] := by
      rw [List.dropWhile_eq_nil_iff]
      intro x hx
      exact List.all_eq_true.mp hps x hx
    rw [pyInt] at h
    simp only [hdrop, List.reverse_nil, List.dropWhile_nil] at h
    simp [pyIntCore] at h

/-- **C4.** In interactive selection over a non-empty list, the input `"0"`
returns no selection (skip), and any input that `int` parses as `k` with
`1 ≤ k ≤ n` terminates the protocol returning the `k`-th listed
descriptor's identifier (`format_id` for audio, `lang_code` for
subtitles, via `ident`). -/
theorem interactive_select_valid (α : Type) (ident : α → String) (streams : List α)
    (rest : List String) (s : String) (k : Nat) (t : α)
    (hk1 : 1 ≤ k) (hk2 : k ≤ streams.length)
    (hs : pyInt s = some (k : Int))
    (ht : streams.get? (k - 1) = some t) :
    interactive_select ident streams ("0" :: rest) = some none ∧
    interactive_select ident streams (s :: rest) = some (some (ident t)) := by
  have hlen : 1 ≤ streams.length := le_trans hk1 hk2
  have hne : streams.isEmpty = false := by
    cases streams with
    | nil => simp at hlen
    | cons a l => rfl
  constructor
  · rw [interactive_select, if_neg (by simp [hne])]
    have h0 : stepChoice ident streams "0" = StepR.skip := by
      rw [stepChoice]
      rw [show pyStripEmpty "0" = false from rfl]
      rw [show pyInt "0" = some 0 from rfl]
      simp
    simp [runSelect, h0]
  · rw [interactive_select, if_neg (by simp [hne])]
    have hstep : stepChoice ident streams s = StepR.chosen (ident t) := by
      have hk0 : ¬((k : Int) = 0) := by omega
      have hrange : 1 ≤ (k : Int) ∧ (k : Int) ≤ (streams.length : Int) := by omega
      have h1 : ((k : Int) - 1).toNat = k - 1 := by omega
      have ht' : streams[k - 1]? = some t := by
        rw [← List.get?_eq_getElem?]
        exact ht
      simp [stepChoice, pyInt_some_strip hs, hs, hk0, hrange.1, hrange.2, h1, ht']
    simp [runSelect, hstep]

theorem interactive_select_valid_w :
    interactive_select Format.format_id
      [{ format_id := "249" }, { format_id := "250" }, { format_id := "251" }]
      ["0"] = some none ∧
    interactive_select Format.format_id
      [{ format_id := "249" }, { format_id := "250" }, { format_id := "251" }]
      ["2"] = some (some "250") :=
  interactive_select_valid Format Format.format_id
    [{ format_id := "249" }, { format_id := "250" }, { format_id := "251" }]
    [] "2" 2 { format_id := "250" } (by decide) (by decide) rfl rfl

/-- **C5.** Every invalid input — empty/whitespace, non-numeric, zero
excluded, out of range — yields a re-prompt (`StepR.retry`), and a run fed
any finite sequence of invalid inputs is still awaiting input afterwards:
no terminal state, no fatal error, no retry limit. -/
theorem interactive_select_invalid_loops (α : Type) (ident : α → String) (streams : List α)
    (inputs : List String) (hne : streams ≠ [])
    (hinv : ∀ s ∈ inputs, stepChoice ident streams s = StepR.retry) :
    interactive_select ident streams inputs = none ∧
    (∀ s, pyStripEmpty s = true → stepChoice ident streams s = StepR.retry) ∧
    (∀ s, pyStripEmpty s = false → pyInt s = none → stepChoice ident streams s = StepR.retry) ∧
    (∀ s c, pyInt s = some c → c ≠ 0 → ¬(1 ≤ c ∧ c ≤ (streams.length : Int)) →
      stepChoice ident streams s = StepR.retry) := by
  have hni : streams.isEmpty = false := by
    cases streams with
    | nil => exact absurd rfl hne
    | cons a l => rfl
  refine ⟨?_, ?_, ?_, ?_⟩
  · rw [interactive_select, if_neg (by simp [hni])]
    induction inputs with
    | nil => rfl
    | cons s rest ih =>
      have hs := hinv s (List.mem_cons_self _ _)
      simp only [runSelect, hs]
      exact ih (fun x hx => hinv x (List.mem_cons_of_mem _ hx))
  · intro s hsE
    rw [stepChoice, if_pos hsE]
  · intro s hsE hsI
    rw [stepChoice, if_neg (by simp [hsE]), hsI]
  · intro s c hsc hc0 hcr
    simp [stepChoice, pyInt_some_strip hsc, hsc, hc0, hcr]

theorem interactive_select_invalid_loops_w :
    interactive_select Format.format_id [{ format_id := "249" }]
      ["", "abc", "7", "-3", "0x"] = none :=
  (interactive_select_invalid_loops Format Format.format_id [{ format_id := "249" }]
    ["", "abc", "7", "-3", "0x"] (by decide) (by decide)).1

/-- The character class of `re.sub(r'[\\/*?:"<>|]', "", name)` (line 283). -/
def badChars : List Char := ['\\', '/', '*', '?', ':', '"', '<', '>', '|']

/-- `re.sub(r'\s+', ' ', ...)` (line 284): every maximal whitespace run
becomes one space.  `prevWS` records whether the previous character was
part of a whitespace run. -/
def collapseGo (prevWS : Bool) : List Char → List Char
  | [] => []
  | c :: cs =>
    if isPySpace c then
      if prevWS then collapseGo true cs else ' ' :: collapseGo true cs
    else c :: collapseGo false cs

/-- `.strip()` (line 284): drop whitespace from both ends. -/
def trimWS (l : List Char) : List Char :=
  ((l.dropWhile isPySpace).reverse.dropWhile isPySpace).reverse

/-- `sanitize_filename` (lines 281-284). -/
def sanitize_filename (name : String) : String :=
  let step1 := name.toList.filter (fun c => !(badChars.contains c))
  String.mk (trimWS (collapseGo false step1))

/-- No two adjacent characters are both whitespace. -/
def noTwoWS : List Char → Bool
  | [] => true
  | [_] => true
  | a :: b :: rest => (!(isPySpace a && isPySpace b)) && noTwoWS (b :: rest)

theorem mem_collapseGo {c : Char} :
    ∀ (p : Bool) (l : List Char), c ∈ collapseGo p l → c = ' ' ∨ c ∈ l := by
  intro p l
  induction l generalizing p with
  | nil => intro h; cases h
  | cons a cs ih =>
    intro h
    rw [collapseGo] at h
    by_cases ha : isPySpace a = true
    · rw [if_pos ha] at h
      cases p with
      | true =>
        rcases ih true h with h' | h'
        · exact Or.inl h'
        · exact Or.inr (List.mem_cons_of_mem _ h')
      | false =>
        rcases List.mem_cons.mp h with h' | h'
        · exact Or.inl h'
        · rcases ih true h' with h'' | h''
          · exact Or.inl h''
          · exact Or.inr (List.mem_cons_of_mem _ h'')
    · rw [if_neg ha] at h
      rcases List.mem_cons.mp h with h' | h'
      · exact Or.inr (h' ▸ List.mem_cons_self _ _)
      · rcases ih false h' with h'' | h''
        · exact Or.inl h''
        · exact Or.inr (List.mem_cons_of_mem _ h'')

theorem ws_collapseGo {c : Char} :
    ∀ (p : Bool) (l : List Char), c ∈ collapseGo p l → isPySpace c = true → c = ' ' := by
  intro p l
  induction l generalizing p with
  | nil => intro h; cases h
  | cons a cs ih =>
    intro h hc
    rw [collapseGo] at h
    by_cases ha : isPySpace a = true
    · rw [if_pos ha] at h
      cases p with
      | true => exact ih true h hc
      | false =>
        rcases List.mem_cons.mp h with h' | h'
        · exact h'
        · exact ih true h' hc
    · rw [if_neg ha] at h
      rcases List.mem_cons.mp h with h' | h'
      · exact absurd (h' ▸ hc) ha
      · exact ih false h' hc

theorem collapseGo_true_head :
    ∀ (l : List Char) (c : Char) (cs : List Char),
      collapseGo true l = c :: cs → isPySpace c = false := by
  intro l
  induction l with
  | nil => intro c cs h; cases h
  | cons a l ih =>
    intro c cs h
    rw [collapseGo] at h
    by_cases ha : isPySpace a = true
    · rw [if_pos ha] at h
      exact ih c cs h
    · rw [if_neg ha] at h
      rw [Bool.not_eq_true] at ha
      cases h
      exact ha

theorem noTwoWS_cons_nonws {a : Char} {l : List Char}
    (ha : isPySpace a = false) (hl : noTwoWS l = true) : noTwoWS (a :: l) = true := by
  cases l with
  | nil => rfl
  | cons b bs =>
    rw [show noTwoWS (a :: b :: bs) = ((!(isPySpace a && isPySpace b)) && noTwoWS (b :: bs)) from rfl]
    rw [ha]
    simpa using hl

theorem noTwoWS_collapseGo : ∀ (p : Bool) (l : List Char),
    noTwoWS (collapseGo p l) = true := by
  intro p l
  induction l generalizing p with
  | nil => rfl
  | cons a cs ih =>
    rw [collapseGo]
    by_cases ha : isPySpace a = true
    · rw [if_pos ha]
      cases p with
      | true => exact ih true
      | false =>
        cases hc : collapseGo true cs with
        | nil => rfl
        | cons b bs =>
          have hb : isPySpace b = false := collapseGo_true_head cs b bs hc
          have hrest := ih true
          rw [hc] at hrest
          show noTwoWS (' ' :: b :: bs) = true
          rw [show noTwoWS (' ' :: b :: bs) = ((!(isPySpace ' ' && isPySpace b)) && noTwoWS (b :: bs)) from rfl]
          rw [hb]
          simpa using hrest
    · rw [if_neg ha]
      rw [Bool.not_eq_true] at ha
      exact noTwoWS_cons_nonws ha (ih false)

theorem noTwoWS_tail {a : Char} {l : List Char}
    (h : noTwoWS (a :: l) = true) : noTwoWS l = true := by
  cases l with
  | nil => rfl
  | cons b bs =>
    rw [show noTwoWS (a :: b :: bs) = ((!(isPySpace a && isPySpace b)) && noTwoWS (b :: bs)) from rfl] at h
    exact (Bool.and_eq_true _ _ ▸ h).2

theorem noTwoWS_dropWhile {l : List Char} (h : noTwoWS l = true) :
    noTwoWS (l.dropWhile isPySpace) = true := by
  induction l with
  | nil => exact h
  | cons a l ih =>
    rw [List.dropWhile_cons]
    by_cases ha : isPySpace a = true
    · rw [if_pos ha]
      exact ih (noTwoWS_tail h)
    · rw [if_neg ha]
      exact h

/-- Last-element compatibility used to reason about `noTwoWS` of
`xs ++ [a]`. -/
def lastOk (xs : List Char) (a : Char) : Bool :=
  match xs.getLast? with
  | none => true
  | some d => !(isPySpace d && isPySpace a)

theorem noTwoWS_append_last :
    ∀ (xs : List Char) (a : Char), noTwoWS (xs ++ [a]) = (noTwoWS xs && lastOk xs a) := by
  intro xs
  induction xs with
  | nil => intro a; rfl
  | cons x ys ih =>
    intro a
    cases ys with
    | nil => simp [noTwoWS, lastOk]
    | cons y zs =>
      have hys : ((y :: zs) ++ [a]) = y :: (zs ++ [a]) := rfl
      calc noTwoWS ((x :: y :: zs) ++ [a])
          = ((!(isPySpace x && isPySpace y)) && noTwoWS ((y :: zs) ++ [a])) := rfl
        _ = ((!(isPySpace x && isPySpace y)) && (noTwoWS (y :: zs) && lastOk (y :: zs) a)) := by
              rw [ih a]
        _ = (((!(isPySpace x && isPySpace y)) && noTwoWS (y :: zs)) && lastOk (y :: zs) a) := by
              rw [Bool.and_assoc]
        _ = (noTwoWS (x :: y :: zs) && lastOk (x :: y :: zs) a) := by
              rw [show noTwoWS (x :: y :: zs) = ((!(isPySpace x && isPySpace y)) && noTwoWS (y :: zs)) from rfl]
              rw [show lastOk (x :: y :: zs) a = lastOk (y :: zs) a from by
                unfold lastOk
                rw [List.getLast?_cons_cons]]

theorem noTwoWS_reverse : ∀ (l : List Char), noTwoWS l.reverse = noTwoWS l := by
  intro l
  induction l with
  | nil => rfl
  | cons x xs ih =>
    rw [List.reverse_cons, noTwoWS_append_last, ih]
    cases xs with
    | nil => rfl
    | cons y ys =>
      rw [show lastOk (y :: ys).reverse x = !(isPySpace y && isPySpace x) from by
        unfold lastOk
        rw [List.getLast?_reverse]
        rfl]
      rw [show noTwoWS (x :: y :: ys) = ((!(isPySpace x && isPySpace y)) && noTwoWS (y :: ys)) from rfl]
      rw [Bool.and_comm (isPySpace y) (isPySpace x)]
      rw [Bool.and_comm]

theorem head?_dropWhile_false :
    ∀ (l : List Char) (c : Char), (l.dropWhile isPySpace).head? = some c → isPySpace c = false := by
  intro l
  induction l with
  | nil => intro c h; cases h
  | cons a l ih =>
    intro c h
    rw [List.dropWhile_cons] at h
    by_cases ha : isPySpace a = true
    · rw [if_pos ha] at h
      exact ih c h
    · rw [if_neg ha] at h
      rw [List.head?_cons, Option.some.injEq] at h
      subst h
      rwa [Bool.not_eq_true] at ha

theorem getLast?_dropWhile_ne :
    ∀ (l : List Char), l.dropWhile isPySpace ≠ [] →
      (l.dropWhile isPySpace).getLast? = l.getLast? := by
  intro l
  induction l with
  | nil => intro h; exact absurd rfl h
  | cons a l ih =>
    intro h
    rw [List.dropWhile_cons] at h ⊢
    by_cases ha : isPySpace a = true
    · rw [if_pos ha] at h ⊢
      have hl : l ≠ [] := by
        intro he
        rw [he] at h
        exact h rfl
      cases l with
      | nil => exact absurd rfl hl
      | cons b bs =>
        rw [ih h, List.getLast?_cons_cons]
    · rw [if_neg ha]

theorem mem_dropWhile {c : Char} :
    ∀ (l : List Char), c ∈ l.dropWhile isPySpace → c ∈ l := by
  intro l
  induction l with
  | nil => intro h; cases h
  | cons a l ih =>
    intro h
    rw [List.dropWhile_cons] at h
    by_cases ha : isPySpace a = true
    · rw [if_pos ha] at h
      exact List.mem_cons_of_mem _ (ih h)
    · rw [if_neg ha] at h
      exact h

theorem mem_trimWS {c : Char} {l : List Char} (h : c ∈ trimWS l) : c ∈ l := by
  rw [trimWS] at h
  rw [List.mem_reverse] at h
  have h1 := mem_dropWhile _ h
  rw [List.mem_reverse] at h1
  exact mem_dropWhile _ h1

theorem noTwoWS_trimWS {l : List Char} (h : noTwoWS l = true) :
    noTwoWS (trimWS l) = true := by
  rw [trimWS, noTwoWS_reverse]
  exact noTwoWS_dropWhile (by rw [noTwoWS_reverse]; exact noTwoWS_dropWhile h)

theorem trimWS_head_ws (l : List Char) (c : Char) (h : (trimWS l).head? = some c) :
    isPySpace c = false := by
  rw [trimWS, List.head?_reverse] at h
  have hne : (l.dropWhile isPySpace).reverse.dropWhile isPySpace ≠ [] := by
    intro he
    rw [he] at h
    simp at h
  have h4 := getLast?_dropWhile_ne ((l.dropWhile isPySpace).reverse) hne
  rw [h4, List.getLast?_reverse] at h
  exact head?_dropWhile_false l c h

theorem trimWS_last_ws (l : List Char) (c : Char) (h : (trimWS l).getLast? = some c) :
    isPySpace c = false := by
  rw [trimWS, List.getLast?_reverse] at h
  exact head?_dropWhile_false _ c h

/-- **C8.** For every input string, `sanitize_filename`'s result contains
none of the characters `\ / * ? : " < > |`, has no two adjacent whitespace
characters (so every maximal whitespace run is a single character), every
whitespace character in it is the plain space `' '`, and it neither starts
nor ends with whitespace. -/
theorem sanitize_filename_spec (name : String) :
    ((sanitize_filename name).toList.all (fun c => !(badChars.contains c))) = true ∧
    noTwoWS (sanitize_filename name).toList = true ∧
    ((sanitize_filename name).toList.all (fun c => !(isPySpace c) || (c == ' '))) = true ∧
    ((match (sanitize_filename name).toList.head? with
      | some c => !(isPySpace c)
      | none => true) = true) ∧
    ((match (sanitize_filename name).toList.getLast? with
      | some c => !(isPySpace c)
      | none => true) = true) := by
  have hres : (sanitize_filename name).toList
      = trimWS (collapseGo false (name.toList.filter (fun c => !(badChars.contains c)))) := rfl
  refine ⟨?_, ?_, ?_, ?_, ?_⟩
  · rw [hres, List.all_eq_true]
    intro c hc
    rcases mem_collapseGo false _ (mem_trimWS hc) with h | h
    · subst h
      rfl
    · exact (List.mem_filter.mp h).2
  · rw [hres]
    exact noTwoWS_trimWS (noTwoWS_collapseGo false _)
  · rw [hres, List.all_eq_true]
    intro c hc
    show (!(isPySpace c) || (c == ' ')) = true
    by_cases hw : isPySpace c = true
    · have h' : c = ' ' := ws_collapseGo false _ (mem_trimWS hc) hw
      subst h'
      rfl
    · rw [Bool.not_eq_true] at hw
      rw [hw]
      rfl
  · rw [hres]
    cases hh : (trimWS (collapseGo false
        (name.toList.filter (fun c => !(badChars.contains c))))).head? with
    | none => rfl
    | some c0 => simp [trimWS_head_ws _ c0 hh]
  · rw [hres]
    cases hh : (trimWS (collapseGo false
        (name.toList.filter (fun c => !(badChars.contains c))))).getLast? with
    | none => rfl
    | some c0 => simp [trimWS_last_ws _ c0 hh]

/-- One subtitle/caption track dictionary from `video_info['subtitles']`
or `video_info['automatic_captions']`.  `lang_code` and `name` are the keys
written by `select_streams` (lines 264-270); they start out absent (or with
`name` present for manual tracks). -/
structure SubTrack where
  ext : Option String := none
  name : Option String := none
  lang_code : Option String := none
deriving DecidableEq

/-- A Python dict of language tag to track list, as an association list
with unique keys (dict iteration order is irrelevant here: the code sorts
the keys before use). -/
abbrev SubMap := List (String × List SubTrack)

def lookupMap : SubMap → String → Option (List SubTrack)
  | [], _ => none
  | (k, v) :: rest, key => if k = key then some v else lookupMap rest key

/-- In-place mutation of the dict entry at an existing key (the Python code
mutates the first track dict of the list, which the dict still holds). -/
def setMap : SubMap → String → List SubTrack → SubMap
  | [], _, _ => []
  | (k, v) :: rest, key, nv =>
    if k = key then (k, nv) :: rest else (k, v) :: setMap rest key nv

/-- Lines 264-265 / 269-270: `sub['lang_code'] = lang;
sub['name'] = sub.get('name', lang) + marker` — performed on the dict
object itself. -/
def markTrack (lang marker : String) (t : SubTrack) : SubTrack :=
  { t with lang_code := some lang, name := some ((t.name.getD lang) ++ marker) }

/-- Line 260: `if len(lang) > 3 and '-' not in lang: continue`. -/
def excludeLang (lang : String) : Bool :=
  decide (lang.length > 3) && !(lang.toList.contains '-')

/-- The loop of lines 259-271 over the sorted language tags.  Returns the
accumulated `subtitle_list` together with the (mutated) `subtitles` and
`automatic_captions` mappings; `none` models the uncaught `IndexError` of
`[...][0]` on an empty track list. -/
def buildSubsGo (subs auto : SubMap) (acc : List SubTrack) :
    List String → Option (List SubTrack × SubMap × SubMap)
  | [] => some (acc, subs, auto)
  | lang :: rest =>
    if excludeLang lang then buildSubsGo subs auto acc rest
    else
      match lookupMap subs lang with
      | some [] => none
      | some (t :: ts) =>
        buildSubsGo (setMap subs lang (markTrack lang " (manual)" t :: ts)) auto
          (acc ++ [markTrack lang " (manual)" t]) rest
      | none =>
        match lookupMap auto lang with
        | some [] => none
        | some (t :: ts) =>
          buildSubsGo subs (setMap auto lang (markTrack lang " (auto)" t :: ts))
            (acc ++ [markTrack lang " (auto)" t]) rest
        | none => buildSubsGo subs auto acc rest

/-- Python `<=` on strings: lexicographic by code point. -/
def chLeB : List Char → List Char → Bool
  | [], _ => true
  | _ :: _, [] => false
  | x :: xs, y :: ys =>
    decide (x.toNat < y.toNat) || (x == y && chLeB xs ys)

def strLeB (a b : String) : Bool := chLeB a.toList b.toList

def langOrder (a b : String) : Prop := strLeB a b = true

instance : DecidableRel langOrder := fun a b => by
  unfold langOrder
  exact inferInstance

/-- Line 257-259: `sorted(list(set(subtitles) | set(automatic_captions)))`. -/
def sortedLangs (subs auto : SubMap) : List String :=
  List.insertionSort langOrder ((subs.map Prod.fst ++ auto.map Prod.fst).dedup)

/-- Lines 256-271 of `select_streams`: build the subtitle candidate list. -/
def buildSubs (subs auto : SubMap) : Option (List SubTrack × SubMap × SubMap) :=
  buildSubsGo subs auto [] (sortedLangs subs auto)

theorem mem_sortedLangs {subs auto : SubMap} {lang : String} :
    lang ∈ sortedLangs subs auto ↔ lang ∈ subs.map Prod.fst ++ auto.map Prod.fst := by
  unfold sortedLangs
  rw [(List.perm_insertionSort langOrder _).mem_iff, List.mem_dedup]

theorem nodup_sortedLangs (subs auto : SubMap) : (sortedLangs subs auto).Nodup := by
  unfold sortedLangs
  exact ((List.perm_insertionSort langOrder _).nodup_iff).mpr (List.nodup_dedup _)

theorem lookup_setMap_ne (m : SubMap) (k k' : String) (v : List SubTrack) (h : k ≠ k') :
    lookupMap (setMap m k v) k' = lookupMap m k' := by
  induction m with
  | nil => rfl
  | cons e rest ih =>
    obtain ⟨a, b⟩ := e
    rw [setMap]
    by_cases ha : a = k
    · rw [if_pos ha, lookupMap, lookupMap, if_neg (ha ▸ h), if_neg (ha ▸ h)]
    · rw [if_neg ha, lookupMap, lookupMap]
      by_cases ha' : a = k'
      · rw [if_pos ha', if_pos ha']
      · rw [if_neg ha', if_neg ha', ih]

theorem lookup_setMap_self (m : SubMap) (k : String) (v v0 : List SubTrack)
    (h : lookupMap m k = some v0) : lookupMap (setMap m k v) k = some v := by
  induction m with
  | nil => cases h
  | cons e rest ih =>
    obtain ⟨a, b⟩ := e
    rw [lookupMap] at h
    rw [setMap]
    by_cases ha : a = k
    · rw [if_pos ha, lookupMap, if_pos ha]
    · rw [if_neg ha] at h
      rw [if_neg ha, lookupMap, if_neg ha]
      exact ih h

theorem lookup_some_mem {m : SubMap} {k : String} {v : List SubTrack}
    (h : lookupMap m k = some v) : k ∈ m.map Prod.fst := by
  induction m with
  | nil => cases h
  | cons e rest ih =>
    obtain ⟨a, b⟩ := e
    rw [lookupMap] at h
    by_cases ha : a = k
    · exact ha ▸ List.mem_cons_self _ _
    · rw [if_neg ha] at h
      exact List.mem_cons_of_mem _ (ih h)

theorem buildSubsGo_lookup_out :
    ∀ (langs : List String) (subs auto : SubMap) (acc lst : List SubTrack) (s' a' : SubMap),
      buildSubsGo subs auto acc langs = some (lst, s', a') →
      ∀ k, k ∉ langs → lookupMap s' k = lookupMap subs k ∧ lookupMap a' k = lookupMap auto k := by
  intro langs
  induction langs with
  | nil =>
    intro subs auto acc lst s' a' h k hk
    simp [buildSubsGo] at h
    obtain ⟨h1, h2, h3⟩ := h
    rw [← h2, ← h3]
    exact ⟨rfl, rfl⟩
  | cons lang rest ih =>
    intro subs auto acc lst s' a' h k hk
    have hk1 : k ≠ lang := fun he => hk (he ▸ List.mem_cons_self _ _)
    have hk2 : k ∉ rest := fun he => hk (List.mem_cons_of_mem _ he)
    by_cases he : excludeLang lang = true
    · have h' : buildSubsGo subs auto acc rest = some (lst, s', a') := by
        simpa [buildSubsGo, he] using h
      exact ih subs auto acc lst s' a' h' k hk2
    · cases hsl : lookupMap subs lang with
      | some l =>
        cases l with
        | nil => simp [buildSubsGo, he, hsl] at h
        | cons t ts =>
          have h' : buildSubsGo (setMap subs lang (markTrack lang " (manual)" t :: ts)) auto
              (acc ++ [markTrack lang " (manual)" t]) rest = some (lst, s', a') := by
            simpa [buildSubsGo, he, hsl] using h
          have hout := ih _ _ _ _ _ _ h' k hk2
          rw [hout.1, lookup_setMap_ne _ _ _ _ (fun x => hk1 x.symm)]
          exact ⟨rfl, hout.2⟩
      | none =>
        cases hal : lookupMap auto lang with
        | some l =>
          cases l with
          | nil => simp [buildSubsGo, he, hsl, hal] at h
          | cons t ts =>
            have h' : buildSubsGo subs (setMap auto lang (markTrack lang " (auto)" t :: ts))
                (acc ++ [markTrack lang " (auto)" t]) rest = some (lst, s', a') := by
              simpa [buildSubsGo, he, hsl, hal] using h
            have hout := ih _ _ _ _ _ _ h' k hk2
            rw [hout.2, lookup_setMap_ne _ _ _ _ (fun x => hk1 x.symm)]
            exact ⟨hout.1, rfl⟩
        | none =>
          have h' : buildSubsGo subs auto acc rest = some (lst, s', a') := by
            simpa [buildSubsGo, he, hsl, hal] using h
          exact ih subs auto acc lst s' a' h' k hk2

theorem buildSubsGo_shape :
    ∀ (langs : List String) (subs auto : SubMap) (acc lst : List SubTrack) (s' a' : SubMap),
      buildSubsGo subs auto acc langs = some (lst, s', a') →
      ∃ nw, lst = acc ++ nw ∧
        ∀ t ∈ nw, ∃ lang, lang ∈ langs ∧ excludeLang lang = false ∧ t.lang_code = some lang := by
  intro langs
  induction langs with
  | nil =>
    intro subs auto acc lst s' a' h
    simp [buildSubsGo] at h
    refine ⟨[], by rw [← h.1, List.append_nil], ?_⟩
    intro t ht
    cases ht
  | cons lang rest ih =>
    intro subs auto acc lst s' a' h
    by_cases he : excludeLang lang = true
    · have h' : buildSubsGo subs auto acc rest = some (lst, s', a') := by
        simpa [buildSubsGo, he] using h
      obtain ⟨nw, h1, h2⟩ := ih _ _ _ _ _ _ h'
      refine ⟨nw, h1, ?_⟩
      intro t ht
      obtain ⟨l2, hl1, hl2, hl3⟩ := h2 t ht
      exact ⟨l2, List.mem_cons_of_mem _ hl1, hl2, hl3⟩
    · have he' : excludeLang lang = false := by
        rwa [Bool.not_eq_true] at he
      cases hsl : lookupMap subs lang with
      | some l =>
        cases l with
        | nil => simp [buildSubsGo, he, hsl] at h
        | cons t0 ts =>
          have h' : buildSubsGo (setMap subs lang (markTrack lang " (manual)" t0 :: ts)) auto
              (acc ++ [markTrack lang " (manual)" t0]) rest = some (lst, s', a') := by
            simpa [buildSubsGo, he, hsl] using h
          obtain ⟨nw, h1, h2⟩ := ih _ _ _ _ _ _ h'
          refine ⟨markTrack lang " (manual)" t0 :: nw, ?_, ?_⟩
          · rw [h1, List.append_assoc]
            rfl
          · intro t ht
            rcases List.mem_cons.mp ht with ht' | ht'
            · exact ⟨lang, List.mem_cons_self _ _, he', by rw [ht']; rfl⟩
            · obtain ⟨l2, hl1, hl2, hl3⟩ := h2 t ht'
              exact ⟨l2, List.mem_cons_of_mem _ hl1, hl2, hl3⟩
      | none =>
        cases hal : lookupMap auto lang with
        | some l =>
          cases l with
          | nil => simp [buildSubsGo, he, hsl, hal] at h
          | cons t0 ts =>
            have h' : buildSubsGo subs (setMap auto lang (markTrack lang " (auto)" t0 :: ts))
                (acc ++ [markTrack lang " (auto)" t0]) rest = some (lst, s', a') := by
              simpa [buildSubsGo, he, hsl, hal] using h
            obtain ⟨nw, h1, h2⟩ := ih _ _ _ _ _ _ h'
            refine ⟨markTrack lang " (auto)" t0 :: nw, ?_, ?_⟩
            · rw [h1, List.append_assoc]
              rfl
            · intro t ht
              rcases List.mem_cons.mp ht with ht' | ht'
              · exact ⟨lang, List.mem_cons_self _ _, he', by rw [ht']; rfl⟩
              · obtain ⟨l2, hl1, hl2, hl3⟩ := h2 t ht'
                exact ⟨l2, List.mem_cons_of_mem _ hl1, hl2, hl3⟩
        | none =>
          have h' : buildSubsGo subs auto acc rest = some (lst, s', a') := by
            simpa [buildSubsGo, he, hsl, hal] using h
          obtain ⟨nw, h1, h2⟩ := ih _ _ _ _ _ _ h'
          refine ⟨nw, h1, ?_⟩
          intro t ht
          obtain ⟨l2, hl1, hl2, hl3⟩ := h2 t ht
          exact ⟨l2, List.mem_cons_of_mem _ hl1, hl2, hl3⟩

theorem filter_lang_nil {nw : List SubTrack} {lang : String}
    (h : ∀ t ∈ nw, t.lang_code ≠ some lang) :
    nw.filter (fun u => u.lang_code == some lang) = [] := by
  rw [List.filter_eq_nil_iff]
  intro t ht
  simp only [beq_iff_eq]
  exact h t ht

theorem buildSubsGo_filter_manual :
    ∀ (langs : List String) (subs auto : SubMap) (acc lst : List SubTrack) (s' a' : SubMap),
      langs.Nodup →
      buildSubsGo subs auto acc langs = some (lst, s', a') →
      ∀ lang, lang ∈ langs → excludeLang lang = false →
      ∀ t0 ts, lookupMap subs lang = some (t0 :: ts) →
        lst.filter (fun u => u.lang_code == some lang)
          = acc.filter (fun u => u.lang_code == some lang) ++ [markTrack lang " (manual)" t0] := by
  intro langs
  induction langs with
  | nil =>
    intro subs auto acc lst s' a' hnd h lang hmem
    cases hmem
  | cons lang' rest ih =>
    intro subs auto acc lst s' a' hnd h lang hmem hk t0 ts ht0
    rw [List.nodup_cons] at hnd
    obtain ⟨hn1, hn2⟩ := hnd
    rcases List.mem_cons.mp hmem with heq | hmem'
    · subst heq
      have h' : buildSubsGo (setMap subs lang (markTrack lang " (manual)" t0 :: ts)) auto
          (acc ++ [markTrack lang " (manual)" t0]) rest = some (lst, s', a') := by
        simpa [buildSubsGo, hk, ht0] using h
      obtain ⟨nw, h1, h2⟩ := buildSubsGo_shape rest _ _ _ _ _ _ h'
      have hnw : nw.filter (fun u => u.lang_code == some lang) = [] := by
        apply filter_lang_nil
        intro t ht hc
        obtain ⟨l2, hl1, _, hl3⟩ := h2 t ht
        rw [hc] at hl3
        have : l2 = lang := by
          injection hl3.symm
        exact hn1 (this ▸ hl1)
      rw [h1, List.filter_append, List.filter_append, hnw, List.append_nil]
      have : ([markTrack lang " (manual)" t0]).filter (fun u => u.lang_code == some lang)
          = [markTrack lang " (manual)" t0] := by
        simp [markTrack]
      rw [this]
    · have hne : lang ≠ lang' := fun he => hn1 (he ▸ hmem')
      by_cases he : excludeLang lang' = true
      · have h' : buildSubsGo subs auto acc rest = some (lst, s', a') := by
          simpa [buildSubsGo, he] using h
        exact ih _ _ _ _ _ _ hn2 h' lang hmem' hk t0 ts ht0
      · cases hsl : lookupMap subs lang' with
        | some l =>
          cases l with
          | nil => simp [buildSubsGo, he, hsl] at h
          | cons u0 us =>
            have h' : buildSubsGo (setMap subs lang' (markTrack lang' " (manual)" u0 :: us)) auto
                (acc ++ [markTrack lang' " (manual)" u0]) rest = some (lst, s', a') := by
              simpa [buildSubsGo, he, hsl] using h
            have hlk : lookupMap (setMap subs lang' (markTrack lang' " (manual)" u0 :: us)) lang
                = some (t0 :: ts) := by
              rw [lookup_setMap_ne _ _ _ _ (fun x => hne x.symm)]
              exact ht0
            have := ih _ _ _ _ _ _ hn2 h' lang hmem' hk t0 ts hlk
            rw [this, List.filter_append]
            have hone : ([markTrack lang' " (manual)" u0]).filter
                (fun u => u.lang_code == some lang) = [] := by
              apply filter_lang_nil
              intro t ht hc
              rw [List.mem_singleton] at ht
              rw [ht] at hc
              have : lang' = lang := by injection hc
              exact hne this.symm
            rw [hone, List.append_nil]
        | none =>
          cases hal : lookupMap auto lang' with
          | some l =>
            cases l with
            | nil => simp [buildSubsGo, he, hsl, hal] at h
            | cons u0 us =>
              have h' : buildSubsGo subs (setMap auto lang' (markTrack lang' " (auto)" u0 :: us))
                  (acc ++ [markTrack lang' " (auto)" u0]) rest = some (lst, s', a') := by
                simpa [buildSubsGo, he, hsl, hal] using h
              have := ih _ _ _ _ _ _ hn2 h' lang hmem' hk t0 ts ht0
              rw [this, List.filter_append]
              have hone : ([markTrack lang' " (auto)" u0]).filter
                  (fun u => u.lang_code == some lang) = [] := by
                apply filter_lang_nil
                intro t ht hc
                rw [List.mem_singleton] at ht
                rw [ht] at hc
                have : lang' = lang := by injection hc
                exact hne this.symm
              rw [hone, List.append_nil]
          | none =>
            have h' : buildSubsGo subs auto acc rest = some (lst, s', a') := by
              simpa [buildSubsGo, he, hsl, hal] using h
            exact ih _ _ _ _ _ _ hn2 h' lang hmem' hk t0 ts ht0

theorem buildSubsGo_filter_auto :
    ∀ (langs : List String) (subs auto : SubMap) (acc lst : List SubTrack) (s' a' : SubMap),
      langs.Nodup →
      buildSubsGo subs auto acc langs = some (lst, s', a') →
      ∀ lang, lang ∈ langs → excludeLang lang = false →
      lookupMap subs lang = none →
      ∀ t0 ts, lookupMap auto lang = some (t0 :: ts) →
        lst.filter (fun u => u.lang_code == some lang)
          = acc.filter (fun u => u.lang_code == some lang) ++ [markTrack lang " (auto)" t0] := by
  intro langs
  induction langs with
  | nil =>
    intro subs auto acc lst s' a' hnd h lang hmem
    cases hmem
  | cons lang' rest ih =>
    intro subs auto acc lst s' a' hnd h lang hmem hk hnosub t0 ts ht0
    rw [List.nodup_cons] at hnd
    obtain ⟨hn1, hn2⟩ := hnd
    rcases List.mem_cons.mp hmem with heq | hmem'
    · subst heq
      have h' : buildSubsGo subs (setMap auto lang (markTrack lang " (auto)" t0 :: ts))
          (acc ++ [markTrack lang " (auto)" t0]) rest = some (lst, s', a') := by
        simpa [buildSubsGo, hk, hnosub, ht0] using h
      obtain ⟨nw, h1, h2⟩ := buildSubsGo_shape rest _ _ _ _ _ _ h'
      have hnw : nw.filter (fun u => u.lang_code == some lang) = [] := by
        apply filter_lang_nil
        intro t ht hc
        obtain ⟨l2, hl1, _, hl3⟩ := h2 t ht
        rw [hc] at hl3
        have : l2 = lang := by
          injection hl3.symm
        exact hn1 (this ▸ hl1)
      rw [h1, List.filter_append, List.filter_append, hnw, List.append_nil]
      have : ([markTrack lang " (auto)" t0]).filter (fun u => u.lang_code == some lang)
          = [markTrack lang " (auto)" t0] := by
        simp [markTrack]
      rw [this]
    · have hne : lang ≠ lang' := fun he => hn1 (he ▸ hmem')
      by_cases he : excludeLang lang' = true
      · have h' : buildSubsGo subs auto acc rest = some (lst, s', a') := by
          simpa [buildSubsGo, he] using h
        exact ih _ _ _ _ _ _ hn2 h' lang hmem' hk hnosub t0 ts ht0
      · cases hsl : lookupMap subs lang' with
        | some l =>
          cases l with
          | nil => simp [buildSubsGo, he, hsl] at h
          | cons u0 us =>
            have h' : buildSubsGo (setMap subs lang' (markTrack lang' " (manual)" u0 :: us)) auto
                (acc ++ [markTrack lang' " (manual)" u0]) rest = some (lst, s', a') := by
              simpa [buildSubsGo, he, hsl] using h
            have hlk : lookupMap (setMap subs lang' (markTrack lang' " (manual)" u0 :: us)) lang
                = none := by
              rw [lookup_setMap_ne _ _ _ _ (fun x => hne x.symm)]
              exact hnosub
            have := ih _ _ _ _ _ _ hn2 h' lang hmem' hk hlk t0 ts ht0
            rw [this, List.filter_append]
            have hone : ([markTrack lang' " (manual)" u0]).filter
                (fun u => u.lang_code == some lang) = [] := by
              apply filter_lang_nil
              intro t ht hc
              rw [List.mem_singleton] at ht
              rw [ht] at hc
              have : lang' = lang := by injection hc
              exact hne this.symm
            rw [hone, List.append_nil]
        | none =>
          cases hal : lookupMap auto lang' with
          | some l =>
            cases l with
            | nil => simp [buildSubsGo, he, hsl, hal] at h
            | cons u0 us =>
              have h' : buildSubsGo subs (setMap auto lang' (markTrack lang' " (auto)" u0 :: us))
                  (acc ++ [markTrack lang' " (auto)" u0]) rest = some (lst, s', a') := by
                simpa [buildSubsGo, he, hsl, hal] using h
              have hlk : lookupMap (setMap auto lang' (markTrack lang' " (auto)" u0 :: us)) lang
                  = some (t0 :: ts) := by
                rw [lookup_setMap_ne _ _ _ _ (fun x => hne x.symm)]
                exact ht0
              have := ih _ _ _ _ _ _ hn2 h' lang hmem' hk hnosub t0 ts hlk
              rw [this, List.filter_append]
              have hone : ([markTrack lang' " (auto)" u0]).filter
                  (fun u => u.lang_code == some lang) = [] := by
                apply filter_lang_nil
                intro t ht hc
                rw [List.mem_singleton] at ht
                rw [ht] at hc
                have : lang' = lang := by injection hc
                exact hne this.symm
              rw [hone, List.append_nil]
          | none =>
            have h' : buildSubsGo subs auto acc rest = some (lst, s', a') := by
              simpa [buildSubsGo, he, hsl, hal] using h
            exact ih _ _ _ _ _ _ hn2 h' lang hmem' hk hnosub t0 ts ht0

theorem buildSubsGo_map_manual :
    ∀ (langs : List String) (subs auto : SubMap) (acc lst : List SubTrack) (s' a' : SubMap),
      langs.Nodup →
      buildSubsGo subs auto acc langs = some (lst, s', a') →
      ∀ lang, lang ∈ langs → excludeLang lang = false →
      ∀ t0 ts, lookupMap subs lang = some (t0 :: ts) →
        lookupMap s' lang = some (markTrack lang " (manual)" t0 :: ts) := by
  intro langs
  induction langs with
  | nil =>
    intro subs auto acc lst s' a' hnd h lang hmem
    cases hmem
  | cons lang' rest ih =>
    intro subs auto acc lst s' a' hnd h lang hmem hk t0 ts ht0
    rw [List.nodup_cons] at hnd
    obtain ⟨hn1, hn2⟩ := hnd
    rcases List.mem_cons.mp hmem with heq | hmem'
    · subst heq
      have h' : buildSubsGo (setMap subs lang (markTrack lang " (manual)" t0 :: ts)) auto
          (acc ++ [markTrack lang " (manual)" t0]) rest = some (lst, s', a') := by
        simpa [buildSubsGo, hk, ht0] using h
      have hout := buildSubsGo_lookup_out rest _ _ _ _ _ _ h' lang hn1
      rw [hout.1]
      exact lookup_setMap_self _ _ _ _ ht0
    · have hne : lang ≠ lang' := fun he => hn1 (he ▸ hmem')
      by_cases he : excludeLang lang' = true
      · have h' : buildSubsGo subs auto acc rest = some (lst, s', a') := by
          simpa [buildSubsGo, he] using h
        exact ih _ _ _ _ _ _ hn2 h' lang hmem' hk t0 ts ht0
      · cases hsl : lookupMap subs lang' with
        | some l =>
          cases l with
          | nil => simp [buildSubsGo, he, hsl] at h
          | cons u0 us =>
            have h' : buildSubsGo (setMap subs lang' (markTrack lang' " (manual)" u0 :: us)) auto
                (acc ++ [markTrack lang' " (manual)" u0]) rest = some (lst, s', a') := by
              simpa [buildSubsGo, he, hsl] using h
            have hlk : lookupMap (setMap subs lang' (markTrack lang' " (manual)" u0 :: us)) lang
                = some (t0 :: ts) := by
              rw [lookup_setMap_ne _ _ _ _ (fun x => hne x.symm)]
              exact ht0
            exact ih _ _ _ _ _ _ hn2 h' lang hmem' hk t0 ts hlk
        | none =>
          cases hal : lookupMap auto lang' with
          | some l =>
            cases l with
            | nil => simp [buildSubsGo, he, hsl, hal] at h
            | cons u0 us =>
              have h' : buildSubsGo subs (setMap auto lang' (markTrack lang' " (auto)" u0 :: us))
                  (acc ++ [markTrack lang' " (auto)" u0]) rest = some (lst, s', a') := by
                simpa [buildSubsGo, he, hsl, hal] using h
              exact ih _ _ _ _ _ _ hn2 h' lang hmem' hk t0 ts ht0
          | none =>
            have h' : buildSubsGo subs auto acc rest = some (lst, s', a') := by
              simpa [buildSubsGo, he, hsl, hal] using h
            exact ih _ _ _ _ _ _ hn2 h' lang hmem' hk t0 ts ht0

/-- **C7.** For every language tag in the union of the manual-subtitle and
auto-caption mappings: a tag longer than 3 characters with no hyphen is
excluded (no candidate in `subtitle_list` carries it), and every retained
tag contributes exactly one candidate — built from the manual mapping's
first track when the tag is present there, otherwise from the auto-caption
mapping's first track — marked with the corresponding origin marker
`" (manual)"` or `" (auto)"`. -/
theorem sub_candidates_filter (subs auto : SubMap) (lst : List SubTrack) (s' a' : SubMap)
    (hrun : buildSubs subs auto = some (lst, s', a'))
    (lang : String) (hmem : lang ∈ subs.map Prod.fst ++ auto.map Prod.fst) :
    (excludeLang lang = true → ∀ t ∈ lst, t.lang_code ≠ some lang) ∧
    (excludeLang lang = false → ∀ t0 ts, lookupMap subs lang = some (t0 :: ts) →
      lst.filter (fun u => u.lang_code == some lang) = [markTrack lang " (manual)" t0]) ∧
    (excludeLang lang = false → lookupMap subs lang = none →
      ∀ t0 ts, lookupMap auto lang = some (t0 :: ts) →
      lst.filter (fun u => u.lang_code == some lang) = [markTrack lang " (auto)" t0]) := by
  rw [buildSubs] at hrun
  refine ⟨?_, ?_, ?_⟩
  · intro hex t ht hc
    obtain ⟨nw, h1, h2⟩ := buildSubsGo_shape _ _ _ _ _ _ _ hrun
    rw [h1] at ht
    simp only [List.nil_append] at ht
    obtain ⟨l2, _, hl2, hl3⟩ := h2 t ht
    rw [hc] at hl3
    have hl : l2 = lang := by injection hl3.symm
    rw [hl] at hl2
    rw [hex] at hl2
    cases hl2
  · intro hex t0 ts ht0
    have hmem' : lang ∈ sortedLangs subs auto :=
      mem_sortedLangs.mpr (List.mem_append.mpr (Or.inl (lookup_some_mem ht0)))
    have := buildSubsGo_filter_manual _ _ _ _ _ _ _
      (nodup_sortedLangs subs auto) hrun lang hmem' hex t0 ts ht0
    simpa using this
  · intro hex hnosub t0 ts ht0
    have hmem' : lang ∈ sortedLangs subs auto :=
      mem_sortedLangs.mpr (List.mem_append.mpr (Or.inr (lookup_some_mem ht0)))
    have := buildSubsGo_filter_auto _ _ _ _ _ _ _
      (nodup_sortedLangs subs auto) hrun lang hmem' hex hnosub t0 ts ht0
    simpa using this

theorem setMap_keys (m : SubMap) (k : String) (v : List SubTrack) :
    (setMap m k v).map Prod.fst = m.map Prod.fst := by
  induction m with
  | nil => rfl
  | cons e rest ih =>
    obtain ⟨a, b⟩ := e
    rw [setMap]
    by_cases ha : a = k
    · rw [if_pos ha]
      rfl
    · rw [if_neg ha]
      show a :: (setMap rest k v).map Prod.fst = a :: rest.map Prod.fst
      rw [ih]

theorem lookup_none_iff (m : SubMap) (k : String) :
    lookupMap m k = none ↔ k ∉ m.map Prod.fst := by
  induction m with
  | nil => simp [lookupMap]
  | cons e rest ih =>
    obtain ⟨a, b⟩ := e
    rw [lookupMap]
    by_cases ha : a = k
    · rw [if_pos ha]
      constructor
      · intro h
        cases h
      · intro h
        exact absurd (ha ▸ List.mem_cons_self _ _) h
    · rw [if_neg ha, ih]
      constructor
      · intro h hc
        rcases List.mem_cons.mp hc with h' | h'
        · exact ha h'.symm
        · exact h h'
      · intro h hc
        exact h (List.mem_cons_of_mem _ hc)

theorem buildSubsGo_keys :
    ∀ (langs : List String) (subs auto : SubMap) (acc lst : List SubTrack) (s' a' : SubMap),
      buildSubsGo subs auto acc langs = some (lst, s', a') →
      s'.map Prod.fst = subs.map Prod.fst ∧ a'.map Prod.fst = auto.map Prod.fst := by
  intro langs
  induction langs with
  | nil =>
    intro subs auto acc lst s' a' h
    simp [buildSubsGo] at h
    obtain ⟨h1, h2, h3⟩ := h
    rw [← h2, ← h3]
    exact ⟨rfl, rfl⟩
  | cons lang rest ih =>
    intro subs auto acc lst s' a' h
    by_cases he : excludeLang lang = true
    · exact ih _ _ _ _ _ _ (by simpa [buildSubsGo, he] using h)
    · cases hsl : lookupMap subs lang with
      | some l =>
        cases l with
        | nil => simp [buildSubsGo, he, hsl] at h
        | cons t ts =>
          have h' : buildSubsGo (setMap subs lang (markTrack lang " (manual)" t :: ts)) auto
              (acc ++ [markTrack lang " (manual)" t]) rest = some (lst, s', a') := by
            simpa [buildSubsGo, he, hsl] using h
          have hkk := ih _ _ _ _ _ _ h'
          rw [hkk.1, setMap_keys]
          exact ⟨rfl, hkk.2⟩
      | none =>
        cases hal : lookupMap auto lang with
        | some l =>
          cases l with
          | nil => simp [buildSubsGo, he, hsl, hal] at h
          | cons t ts =>
            have h' : buildSubsGo subs (setMap auto lang (markTrack lang " (auto)" t :: ts))
                (acc ++ [markTrack lang " (auto)" t]) rest = some (lst, s', a') := by
              simpa [buildSubsGo, he, hsl, hal] using h
            have hkk := ih _ _ _ _ _ _ h'
            rw [hkk.2, setMap_keys]
            exact ⟨hkk.1, rfl⟩
        | none =>
          exact ih _ _ _ _ _ _ (by simpa [buildSubsGo, he, hsl, hal] using h)

theorem buildSubsGo_map_auto :
    ∀ (langs : List String) (subs auto : SubMap) (acc lst : List SubTrack) (s' a' : SubMap),
      langs.Nodup →
      buildSubsGo subs auto acc langs = some (lst, s', a') →
      ∀ lang, lang ∈ langs → excludeLang lang = false →
      lookupMap subs lang = none →
      ∀ t0 ts, lookupMap auto lang = some (t0 :: ts) →
        lookupMap a' lang = some (markTrack lang " (auto)" t0 :: ts) := by
  intro langs
  induction langs with
  | nil =>
    intro subs auto acc lst s' a' hnd h lang hmem
    cases hmem
  | cons lang' rest ih =>
    intro subs auto acc lst s' a' hnd h lang hmem hk hnosub t0 ts ht0
    rw [List.nodup_cons] at hnd
    obtain ⟨hn1, hn2⟩ := hnd
    rcases List.mem_cons.mp hmem with heq | hmem'
    · subst heq
      have h' : buildSubsGo subs (setMap auto lang (markTrack lang " (auto)" t0 :: ts))
          (acc ++ [markTrack lang " (auto)" t0]) rest = some (lst, s', a') := by
        simpa [buildSubsGo, hk, hnosub, ht0] using h
      have hout := buildSubsGo_lookup_out rest _ _ _ _ _ _ h' lang hn1
      rw [hout.2]
      exact lookup_setMap_self _ _ _ _ ht0
    · have hne : lang ≠ lang' := fun he => hn1 (he ▸ hmem')
      by_cases he : excludeLang lang' = true
      · have h' : buildSubsGo subs auto acc rest = some (lst, s', a') := by
          simpa [buildSubsGo, he] using h
        exact ih _ _ _ _ _ _ hn2 h' lang hmem' hk hnosub t0 ts ht0
      · cases hsl : lookupMap subs lang' with
        | some l =>
          cases l with
          | nil => simp [buildSubsGo, he, hsl] at h
          | cons u0 us =>
            have h' : buildSubsGo (setMap subs lang' (markTrack lang' " (manual)" u0 :: us)) auto
                (acc ++ [markTrack lang' " (manual)" u0]) rest = some (lst, s', a') := by
              simpa [buildSubsGo, he, hsl] using h
            have hlk : lookupMap (setMap subs lang' (markTrack lang' " (manual)" u0 :: us)) lang
                = none := by
              rw [lookup_setMap_ne _ _ _ _ (fun x => hne x.symm)]
              exact hnosub
            exact ih _ _ _ _ _ _ hn2 h' lang hmem' hk hlk t0 ts ht0
        | none =>
          cases hal : lookupMap auto lang' with
          | some l =>
            cases l with
            | nil => simp [buildSubsGo, he, hsl, hal] at h
            | cons u0 us =>
              have h' : buildSubsGo subs (setMap auto lang' (markTrack lang' " (auto)" u0 :: us))
                  (acc ++ [markTrack lang' " (auto)" u0]) rest = some (lst, s', a') := by
                simpa [buildSubsGo, he, hsl, hal] using h
              have hlk : lookupMap (setMap auto lang' (markTrack lang' " (auto)" u0 :: us)) lang
                  = some (t0 :: ts) := by
                rw [lookup_setMap_ne _ _ _ _ (fun x => hne x.symm)]
                exact ht0
              exact ih _ _ _ _ _ _ hn2 h' lang hmem' hk hnosub t0 ts hlk
          | none =>
            have h' : buildSubsGo subs auto acc rest = some (lst, s', a') := by
              simpa [buildSubsGo, he, hsl, hal] using h
            exact ih _ _ _ _ _ _ hn2 h' lang hmem' hk hnosub t0 ts ht0

/-- **C10.** Building the subtitle candidate list mutates the input
metadata document in place, on whichever mapping supplied the track: for a
retained tag present in the manual `subtitles` mapping, that mapping comes
out of the build holding the first track with `lang_code` set and
`" (manual)"` appended to its name; for a retained tag found only in the
`automatic_captions` mapping, that mapping comes out with `" (auto)"`
appended likewise.  Either way the mutated mapping differs from the input
one, and running selection again on the mutated document appends the
corresponding marker a second time. -/
theorem sub_build_mutates (subs auto : SubMap) (lst : List SubTrack) (s' a' : SubMap)
    (hrun : buildSubs subs auto = some (lst, s', a'))
    (lang : String) (hk : excludeLang lang = false) :
    (∀ t0 ts n, lookupMap subs lang = some (t0 :: ts) → t0.name = some n →
      lookupMap s' lang
        = some ({ t0 with lang_code := some lang, name := some (n ++ " (manual)") } :: ts) ∧
      s' ≠ subs ∧
      (∀ lst2 s2 a2, buildSubs s' a' = some (lst2, s2, a2) →
        lookupMap s2 lang
          = some ({ t0 with
                    lang_code := some lang,
                    name := some ((n ++ " (manual)") ++ " (manual)") } :: ts))) ∧
    (lookupMap subs lang = none →
      ∀ t0 ts n, lookupMap auto lang = some (t0 :: ts) → t0.name = some n →
      lookupMap a' lang
        = some ({ t0 with lang_code := some lang, name := some (n ++ " (auto)") } :: ts) ∧
      a' ≠ auto ∧
      (∀ lst2 s2 a2, buildSubs s' a' = some (lst2, s2, a2) →
        lookupMap a2 lang
          = some ({ t0 with
                    lang_code := some lang,
                    name := some ((n ++ " (auto)") ++ " (auto)") } :: ts))) := by
  rw [buildSubs] at hrun
  constructor
  · intro t0 ts n ht0 hname
    have hmem' : lang ∈ sortedLangs subs auto :=
      mem_sortedLangs.mpr (List.mem_append.mpr (Or.inl (lookup_some_mem ht0)))
    have hmark : markTrack lang " (manual)" t0
        = { t0 with lang_code := some lang, name := some (n ++ " (manual)") } := by
      simp [markTrack, hname]
    have h1 : lookupMap s' lang = some (markTrack lang " (manual)" t0 :: ts) :=
      buildSubsGo_map_manual _ _ _ _ _ _ _
        (nodup_sortedLangs subs auto) hrun lang hmem' hk t0 ts ht0
    refine ⟨hmark ▸ h1, ?_, ?_⟩
    · intro he
      rw [he, ht0] at h1
      injection h1 with h1'
      injection h1' with hh _
      have hn2 := congrArg SubTrack.name hh
      rw [hname, hmark] at hn2
      have hlen := congrArg (fun o => (Option.getD o "").length) hn2
      simp only [Option.getD_some, String.length_append] at hlen
      have h9 : (" (manual)" : String).length = 9 := rfl
      omega
    · intro lst2 s2 a2 hrun2
      rw [buildSubs] at hrun2
      have hmem2 : lang ∈ sortedLangs s' a' :=
        mem_sortedLangs.mpr (List.mem_append.mpr (Or.inl (lookup_some_mem h1)))
      have h2 := buildSubsGo_map_manual _ _ _ _ _ _ _
        (nodup_sortedLangs s' a') hrun2 lang hmem2 hk
        (markTrack lang " (manual)" t0) ts h1
      rw [h2]
      obtain ⟨e0, n0, lc0⟩ := t0
      have hn0 : n0 = some n := hname
      subst hn0
      rfl
  · intro hnosub t0 ts n ht0 hname
    have hmem' : lang ∈ sortedLangs subs auto :=
      mem_sortedLangs.mpr (List.mem_append.mpr (Or.inr (lookup_some_mem ht0)))
    have hmark : markTrack lang " (auto)" t0
        = { t0 with lang_code := some lang, name := some (n ++ " (auto)") } := by
      simp [markTrack, hname]
    have h1 : lookupMap a' lang = some (markTrack lang " (auto)" t0 :: ts) :=
      buildSubsGo_map_auto _ _ _ _ _ _ _
        (nodup_sortedLangs subs auto) hrun lang hmem' hk hnosub t0 ts ht0
    refine ⟨hmark ▸ h1, ?_, ?_⟩
    · intro he
      rw [he, ht0] at h1
      injection h1 with h1'
      injection h1' with hh _
      have hn2 := congrArg SubTrack.name hh
      rw [hname, hmark] at hn2
      have hlen := congrArg (fun o => (Option.getD o "").length) hn2
      simp only [Option.getD_some, String.length_append] at hlen
      have h7 : (" (auto)" : String).length = 7 := rfl
      omega
    · intro lst2 s2 a2 hrun2
      rw [buildSubs] at hrun2
      have hs'none : lookupMap s' lang = none := by
        rw [lookup_none_iff]
        rw [(buildSubsGo_keys _ _ _ _ _ _ _ hrun).1]
        rw [← lookup_none_iff]
        exact hnosub
      have hmem2 : lang ∈ sortedLangs s' a' :=
        mem_sortedLangs.mpr (List.mem_append.mpr (Or.inr (lookup_some_mem h1)))
      have h2 := buildSubsGo_map_auto _ _ _ _ _ _ _
        (nodup_sortedLangs s' a') hrun2 lang hmem2 hk hs'none
        (markTrack lang " (auto)" t0) ts h1
      rw [h2]
      obtain ⟨e0, n0, lc0⟩ := t0
      have hn0 : n0 = some n := hname
      subst hn0
      rfl

/-- Concrete metadata used by the subtitle witnesses: a manual Spanish
track, an auto-caption English track, and an auto track under the
filtered-out tag `"filipino"`. -/
def subsEx : SubMap := [("es", [{ ext := some "vtt", name := some "Spanish" }])]

def autoEx : SubMap :=
  [("en", [{ ext := some "vtt", name := some "English" }]),
   ("filipino", [{ ext := some "vtt" }])]

def lstEx : List SubTrack :=
  [{ ext := some "vtt", name := some "English (auto)", lang_code := some "en" },
   { ext := some "vtt", name := some "Spanish (manual)", lang_code := some "es" }]

def subsEx' : SubMap :=
  [("es", [{ ext := some "vtt", name := some "Spanish (manual)", lang_code := some "es" }])]

def autoEx' : SubMap :=
  [("en", [{ ext := some "vtt", name := some "English (auto)", lang_code := some "en" }]),
   ("filipino", [{ ext := some "vtt" }])]

theorem sub_candidates_filter_w :
    lstEx.filter (fun u => u.lang_code == some "es")
      = [markTrack "es" " (manual)" { ext := some "vtt", name := some "Spanish" }] :=
  (sub_candidates_filter subsEx autoEx lstEx subsEx' autoEx' (by decide) "es"
    (by decide)).2.1 (by decide) { ext := some "vtt", name := some "Spanish" } [] (by decide)

theorem sub_build_mutates_w :
    lookupMap subsEx' "es"
      = some ({ ({ ext := some "vtt", name := some "Spanish" } : SubTrack) with
                lang_code := some "es",
                name := some ("Spanish" ++ " (manual)") } :: []) ∧
    lookupMap autoEx' "en"
      = some ({ ({ ext := some "vtt", name := some "English" } : SubTrack) with
                lang_code := some "en",
                name := some ("English" ++ " (auto)") } :: []) :=
  ⟨((sub_build_mutates subsEx autoEx lstEx subsEx' autoEx' (by decide) "es" (by decide)).1
      { ext := some "vtt", name := some "Spanish" } [] "Spanish" (by decide) rfl).1,
   ((sub_build_mutates subsEx autoEx lstEx subsEx' autoEx' (by decide) "en" (by decide)).2
      (by decide) { ext := some "vtt", name := some "English" } [] "English" (by decide) rfl).1⟩

/-- Lines 306-326 of `download_and_process`: the pure construction of the
external tool's argument list from the selection.  Order and contents follow
the source exactly; only the executable path strings are parameters. -/
def buildCommand (pyExe url ffmpegLoc : String) (browser : Option String) (verbose : Bool)
    (videoId : String) (audioId : Option String) (subtitleLang : Option String)
    (outputPath : String) : List String :=
  let cmd := [pyExe, "-m", "yt_dlp", url, "--ffmpeg-location", ffmpegLoc]
  let cmd := cmd ++ (match browser with
    | some b => ["--cookies-from-browser", b]
    | none => [])
  let cmd := cmd ++ (if verbose then ["--verbose"] else [])
  let cmd := cmd ++ (match audioId with
    | some a => ["-f", videoId ++ "+" ++ a]
    | none => ["-f", videoId ++ "+bestaudio"])
  let cmd := cmd ++ (match subtitleLang with
    | some l => ["--write-sub", "--sub-lang", l, "--embed-subs"]
    | none => [])
  cmd ++ ["--merge-output-format", "mp4"] ++ ["-o", outputPath]

/-- **C9.** The track-pairing expression passed after `-f` is
`videoId + "+" + audioId` when an audio track was chosen and
`videoId + "+bestaudio"` when the user skipped the audio selection. -/
theorem plan_pairing_expr (pyExe url ffmpegLoc : String) (browser : Option String)
    (verbose : Bool) (videoId a : String) (subtitleLang : Option String) (outputPath : String) :
    (∃ pre post, buildCommand pyExe url ffmpegLoc browser verbose videoId (some a)
        subtitleLang outputPath = pre ++ ["-f", videoId ++ "+" ++ a] ++ post) ∧
    (∃ pre post, buildCommand pyExe url ffmpegLoc browser verbose videoId none
        subtitleLang outputPath = pre ++ ["-f", videoId ++ "+bestaudio"] ++ post) := by
  constructor
  · refine ⟨[pyExe, "-m", "yt_dlp", url, "--ffmpeg-location", ffmpegLoc] ++
      (match browser with
        | some b => ["--cookies-from-browser", b]
        | none => []) ++
      (if verbose then ["--verbose"] else []),
      (match subtitleLang with
        | some l => ["--write-sub", "--sub-lang", l, "--embed-subs"]
        | none => []) ++
      ["--merge-output-format", "mp4"] ++ ["-o", outputPath], ?_⟩
    simp [buildCommand]
  · refine ⟨[pyExe, "-m", "yt_dlp", url, "--ffmpeg-location", ffmpegLoc] ++
      (match browser with
        | some b => ["--cookies-from-browser", b]
        | none => []) ++
      (if verbose then ["--verbose"] else []),
      (match subtitleLang with
        | some l => ["--write-sub", "--sub-lang", l, "--embed-subs"]
        | none => []) ++
      ["--merge-output-format", "mp4"] ++ ["-o", outputPath], ?_⟩
    simp [buildCommand]

/-- Does the needle match at the front of the haystack? -/
def leadMatch : List Char → List Char → Bool
  | [], _ => true
  | _ :: _, [] => false
  | a :: xs, b :: ys => a == b && leadMatch xs ys

/-- Substring test (Python `in` on strings). -/
def containsSub (needle hay : List Char) : Bool :=
  match hay with
  | [] => needle.isEmpty
  | _ :: t => leadMatch needle hay || containsSub needle t

/-- Modelled from the spec: the title-text language-hint heuristic of
§4.3 step 2 (case-insensitive search for hint substrings such as
"español" / "castellano"); no such code exists in `src/yt-spanish.py`. -/
def titleHints (title : String) : Bool :=
  containsSub "español".toList (title.toList.map Char.toLower) ||
    containsSub "castellano".toList (title.toList.map Char.toLower)

/-- Modelled from the spec: an audio-bearing track whose language tag
starts with the preferred-language prefix (§4.3 automatic mode, step 1). -/
def langTagMatches (pre : String) (f : Format) : Bool :=
  isAudioBearing f && leadMatch pre.toList (f.language.getD "").toList

/-- First maximum by `abr` (keeps the earlier element on ties): the head of
a stable descending sort by bitrate. -/
def firstMaxAbr : List Format → Option Format
  | [] => none
  | a :: l =>
    match firstMaxAbr l with
    | none => some a
    | some b => if a.abr.getD 0 < b.abr.getD 0 then some b else some a

/-- Modelled from the spec: the automatic (language-preference) audio
selection policy of §4.3 is described by the spec but absent from
`src/yt-spanish.py` (the source implements only the interactive policy).
Following the spec's words: filter to audio-bearing tracks whose language
tag starts with the target prefix, rank by bitrate descending and pick the
top; if none match, fall back to the best-bitrate audio-bearing track
overall when the title hints at the language; otherwise select nothing. -/
def autoSelectAudio (formats : List Format) (title : String) (pre : String) : Option Format :=
  match firstMaxAbr (formats.filter (langTagMatches pre)) with
  | some f => some f
  | none =>
    if titleHints title then firstMaxAbr (formats.filter isAudioBearing) else none

theorem firstMaxAbr_ne_none (a : Format) (l : List Format) :
    firstMaxAbr (a :: l) ≠ none := by
  cases h : firstMaxAbr l with
  | none => simp [firstMaxAbr, h]
  | some b =>
    by_cases hlt : a.abr.getD 0 < b.abr.getD 0
    · simp [firstMaxAbr, h, hlt]
    · simp [firstMaxAbr, h, hlt]

theorem firstMaxAbr_spec :
    ∀ (l : List Format), l ≠ [] →
      ∃ f, firstMaxAbr l = some f ∧ f ∈ l ∧ ∀ g ∈ l, g.abr.getD 0 ≤ f.abr.getD 0 := by
  intro l
  induction l with
  | nil => intro h; exact absurd rfl h
  | cons a xs ih =>
    intro _
    cases hx : firstMaxAbr xs with
    | none =>
      have hxs : xs = [] := by
        cases xs with
        | nil => rfl
        | cons y ys => exact absurd hx (firstMaxAbr_ne_none y ys)
      subst hxs
      refine ⟨a, rfl, List.mem_cons_self _ _, ?_⟩
      intro g hg
      rcases List.mem_cons.mp hg with h | h
      · exact h ▸ le_refl _
      · cases h
    | some b =>
      have hxs : xs ≠ [] := by
        intro he
        rw [he] at hx
        cases hx
      obtain ⟨f1, h1, h2, h3⟩ := ih hxs
      rw [hx] at h1
      injection h1 with h1
      subst h1
      by_cases hlt : a.abr.getD 0 < b.abr.getD 0
      · refine ⟨b, by simp [firstMaxAbr, hx, hlt], List.mem_cons_of_mem _ h2, ?_⟩
        intro g hg
        rcases List.mem_cons.mp hg with h | h
        · exact h ▸ le_of_lt hlt
        · exact h3 g h
      · refine ⟨a, by simp [firstMaxAbr, hx, hlt], List.mem_cons_self _ _, ?_⟩
        intro g hg
        rcases List.mem_cons.mp hg with h | h
        · exact h ▸ le_refl _
        · exact le_trans (h3 g h) (le_of_not_lt hlt)

/-- **C1.** (spec-modelled) The automatic language-preference audio mode
never returns a track whose language tag does not start with the preferred
prefix unless the set of prefix-matching audio-bearing tracks is empty; and
when that set is non-empty it returns a member of it with the highest
bitrate. -/
theorem auto_audio_pref (formats : List Format) (title pre : String) :
    (∀ f, autoSelectAudio formats title pre = some f →
      leadMatch pre.toList (f.language.getD "").toList = false →
      formats.filter (langTagMatches pre) = []) ∧
    (formats.filter (langTagMatches pre) ≠ [] →
      ∃ f, autoSelectAudio formats title pre = some f ∧
        f ∈ formats.filter (langTagMatches pre) ∧
        ∀ g ∈ formats.filter (langTagMatches pre), g.abr.getD 0 ≤ f.abr.getD 0) := by
  constructor
  · intro f hf hns
    cases hm : firstMaxAbr (formats.filter (langTagMatches pre)) with
    | none =>
      cases hl : formats.filter (langTagMatches pre) with
      | nil => rfl
      | cons x xs =>
        rw [hl] at hm
        exact absurd hm (firstMaxAbr_ne_none x xs)
    | some f0 =>
      exfalso
      rw [autoSelectAudio, hm] at hf
      injection hf with hf
      subst hf
      have hne : formats.filter (langTagMatches pre) ≠ [] := by
        intro he
        rw [he] at hm
        cases hm
      obtain ⟨f1, h1, h2, _⟩ := firstMaxAbr_spec _ hne
      rw [hm] at h1
      injection h1 with h1
      subst h1
      have hmf := (List.mem_filter.mp h2).2
      rw [langTagMatches, Bool.and_eq_true] at hmf
      rw [hns] at hmf
      exact Bool.noConfusion hmf.2
  · intro hne
    obtain ⟨f, h1, h2, h3⟩ := firstMaxAbr_spec _ hne
    refine ⟨f, ?_, h2, h3⟩
    rw [autoSelectAudio, h1]

theorem auto_audio_pref_w :
    ([{ format_id := "140", acodec := some "opus", abr := some 128,
        language := some "en" }] : List Format).filter (langTagMatches "es") = [] :=
  (auto_audio_pref
    [{ format_id := "140", acodec := some "opus", abr := some 128, language := some "en" }]
    "Película en Español" "es").1
    { format_id := "140", acodec := some "opus", abr := some 128, language := some "en" }
    (by decide) (by decide)
